import Mathlib

/-!
# RustMarket — verification of the concurrency-sensitive core

Shallow embedding of the paper-trading application's core subsystems:

* the trade execution engine (`src/services/trading_service.rs`:
  `market_buy`, `market_sell`) together with its ledger-store operations
  (`src/services/account_service.rs`: `get_or_create_account`, `set_cash`;
  the position helpers `get_position`, `upsert_position`, `delete_position`);
* the deposit operation (`src/services/user_service.rs`: `deposit_funds`);
* the alert trigger primitive (`src/services/alerts_service.rs`:
  `trigger_alert`);
* the alert monitor tick (`src/alert_monitor.rs`: `run_tick`);
* the multi-symbol trades WebSocket query normalization
  (`src/ws.rs`: `ws_trades_multi`).

Modelling conventions:

* Rust `f64` money/price values are modelled by exact rationals `ℚ`.  Every
  finite double is a rational, and the arithmetic performed by the code
  (`+`, `-`, `*`, `/`, comparisons) is modelled exactly, without rounding.
  Non-finite doubles (NaN, ±∞) are not rationals; where the source code
  explicitly branches on `f64::is_finite` (the alert monitor) the quote
  carries an explicit `cIsFinite` flag, and the short-circuit shape of the
  source guard (`!price.is_finite() || price <= 0.0`) makes the embedded
  guard agree with IEEE semantics on every input: whenever the flag is
  false the guard is already true, so the rational payload is never
  consulted for a non-finite value.
* Rust `i64` quantities are modelled by `ℤ` (the code never comes near
  the 64-bit range on the paths in scope), timestamps by `ℤ`, MongoDB
  `ObjectId`s by `Nat`, user ids and symbols by `String`.
* The MongoDB collections are modelled as in-memory lists; `find_one`
  is first-match lookup, `update_one` updates the first matching
  document (a no-op when nothing matches), `update_one` with
  `upsert: true` inserts when nothing matches, `delete_one` removes the
  first matching document, `insert_one` appends.  Store errors
  (`mongodb::error::Error`) are not modelled: every store call succeeds,
  which is the execution in which the claims under test are stated; in
  particular `Result::is_ok()` on a store call is modelled as `true`.
* `ObjectId::new()` and `Utc::now()` are impure; the embedding takes the
  freshly generated id(s) and the timestamp as explicit parameters.
* The broadcast notification sends in the trading service and the alerts
  service are fire-and-forget (`let _ = state.events_tx.send(..)`) and are
  not part of any claim about those functions, so they are not recorded;
  the alert monitor's single batched `alertsUpdated` publication is
  recorded explicitly, because it is the subject of a claim.
-/

namespace RustMarket

/- The Batteries rational-number operations are `@[irreducible]`; making
them semireducible again lets concrete witnesses evaluate by `decide`
(the kernel itself never respects `irreducible`, so this changes nothing
about what is provable). -/
attribute [local semireducible] Rat.mul Rat.add Rat.sub Rat.inv

/-- Rust `str::to_uppercase`, on the ASCII fragment that ticker symbols
use (embedded structurally over the character list so that concrete
instances evaluate in the kernel). -/
def rustToUppercase (s : String) : String := ⟨s.data.map Char.toUpper⟩

/-- Rust `str::trim` (leading and trailing whitespace removed), on the
ASCII whitespace fragment. -/
def rustTrim (s : String) : String :=
  ⟨((s.data.dropWhile Char.isWhitespace).reverse.dropWhile Char.isWhitespace).reverse⟩

/-- Rust `str::is_empty`. -/
def rustIsEmpty (s : String) : Bool := s.data.isEmpty

/-- Rust `str::split(sep)` on a character list: split at every separator,
keeping empty segments (so `""` yields `[""]`, and `"a,"` yields
`["a", ""]`, as in Rust). -/
def splitOnChar (sep : Char) : List Char → List (List Char)
  | [] => [[]]
  | c :: rest =>
    let r := splitOnChar sep rest
    if c = sep then [] :: r
    else
      match r with
      | [] => [[c]]
      | g :: gs => (c :: g) :: gs

/-- Rust `str::split(sep)`. -/
def rustSplit (sep : Char) (s : String) : List String :=
  (splitOnChar sep s.data).map (fun cs => ⟨cs⟩)

/-- Model of `finnhub::QuoteResponse`, restricted to the one field the
core reads: `c`, the current price.  `c` is the exact rational value of
the `f64` when it is finite; `cIsFinite` records `c.is_finite()`
(`false` for NaN and ±∞, in which case the rational payload is junk that
the embedded code never uses behind a finiteness guard). -/
structure QuoteResponse where
  c : ℚ
  cIsFinite : Bool
  deriving DecidableEq, Repr

/-- Model of `models::Account` (`_id` is the owning user's id, which is
the association key in the store below). -/
structure Account where
  cash : ℚ
  updatedAt : ℤ
  deriving DecidableEq, Repr

/-- Model of `models::Position`. -/
structure Position where
  id : Nat
  userId : String
  symbol : String
  qty : ℤ
  avgPrice : ℚ
  updatedAt : ℤ
  deriving DecidableEq, Repr

/-- Model of `models::Order`. -/
structure Order where
  id : Nat
  userId : String
  symbol : String
  side : String
  qty : ℤ
  price : ℚ
  total : ℚ
  createdAt : ℤ
  deriving DecidableEq, Repr

/-- Model of `models::Alert`. -/
structure Alert where
  id : Nat
  userId : String
  symbol : String
  condition : String
  targetPrice : ℚ
  createdAt : ℤ
  triggered : Bool
  triggeredAt : Option ℤ
  deriving DecidableEq, Repr

/-- The ledger store: the `accounts`, `positions` and `orders`
collections (accounts keyed by user id, i.e. the `_id`). -/
structure Db where
  accounts : List (String × Account)
  positions : List Position
  orders : List Order
  deriving DecidableEq, Repr

/-- Field-keyed error map (`FieldErrors = HashMap<String, String>` in
`auth_service.rs`).  The insertion order is kept; each error path of the
embedded functions inserts distinct keys, so a list is a faithful model
of the map's contents. -/
abbrev FieldErrors := List (String × String)

/-! ## Generic one-document store update (`update_one` / `delete_one`) -/

/-- `update_one`: replace the first element satisfying `p` by its image
under `f`; return whether a document matched (`matched_count > 0`)
together with the updated list.  When nothing matches the list is
returned unchanged. -/
def updateOne {α : Type} (p : α → Bool) (f : α → α) : List α → Bool × List α
  | [] => (false, [])
  | a :: as =>
    if p a then (true, f a :: as)
    else
      let r := updateOne p f as
      (r.1, a :: r.2)

/-- Replace the first element satisfying `p` by `x` (helper for
`update_one` with a full `$set` of every field). -/
def setFirst {α : Type} (p : α → Bool) (x : α) : List α → List α
  | [] => []
  | a :: as => if p a then x :: as else a :: setFirst p x as

/-- `delete_one`: remove the first element satisfying `p`. -/
def deleteFirst {α : Type} (p : α → Bool) : List α → List α
  | [] => []
  | a :: as => if p a then as else a :: deleteFirst p as

/-! ## Ledger store operations (`account_service.rs` and the position
helpers of `trading_service.rs`) -/

/-- `accounts.find_one(doc! { "_id": user_id })`. -/
def findAccountL (l : List (String × Account)) (userId : String) : Option Account :=
  (l.find? (fun kv => kv.1 == userId)).map (·.2)

def findAccount (db : Db) (userId : String) : Option Account :=
  findAccountL db.accounts userId

/-- `account_service::get_or_create_account`: return the user's account,
creating it with the fixed starting balance 10 000.00 when absent. -/
def getOrCreateAccount (db : Db) (userId : String) (now : ℤ) : Account × Db :=
  match findAccount db userId with
  | some a => (a, db)
  | none =>
    let a : Account := { cash := 10000, updatedAt := now }
    (a, { db with accounts := db.accounts ++ [(userId, a)] })

/-- `account_service::set_cash`: `update_one` on `_id = user_id` setting
`cash` and `updated_at` (no upsert: a no-op when the account is absent). -/
def setCash (db : Db) (userId : String) (cash : ℚ) (updatedAt : ℤ) : Db :=
  { db with
    accounts :=
      setFirst (fun kv => kv.1 == userId) (userId, { cash := cash, updatedAt := updatedAt })
        db.accounts }

/-- `trading_service::get_position`:
`positions.find_one(doc! { "user_id": user_id, "symbol": symbol })`. -/
def getPositionL (l : List Position) (userId symbol : String) : Option Position :=
  l.find? (fun p => p.userId == userId && p.symbol == symbol)

def getPosition (db : Db) (userId symbol : String) : Option Position :=
  getPositionL db.positions userId symbol

/-- `trading_service::upsert_position`: `update_one` keyed on `_id` with
`$set` of every field and `upsert: true`. -/
def upsertPosition (db : Db) (pos : Position) : Db :=
  if db.positions.any (fun p => p.id == pos.id) then
    { db with positions := setFirst (fun p => p.id == pos.id) pos db.positions }
  else
    { db with positions := db.positions ++ [pos] }

/-- `trading_service::delete_position`: `delete_one` keyed on `_id`. -/
def deletePosition (db : Db) (id : Nat) : Db :=
  { db with positions := deleteFirst (fun p => p.id == id) db.positions }

/-! ## Trade execution engine (`trading_service.rs`) -/

/-- Result record of `market_buy` (`trading_service::BuyResult`). -/
structure BuyResult where
  symbol : String
  qty : ℤ
  fillPrice : ℚ
  cost : ℚ
  newCash : ℚ
  position : Position
  deriving DecidableEq, Repr

/-- Result record of `market_sell` (`trading_service::SellResult`). -/
structure SellResult where
  symbol : String
  qty : ℤ
  fillPrice : ℚ
  proceeds : ℚ
  newCash : ℚ
  remaining : Option Position
  deriving DecidableEq, Repr

/-- `trading_service::market_buy`.  `quoteOf` models
`state.finnhub.quote`; `now` models `Utc::now().timestamp()`;
`newPosId`/`newOrderId` model the `ObjectId::new()` calls.  The final
store state is returned on every path (the account lazily created by
`get_or_create_account` persists even when the buy is then rejected). -/
def market_buy (db : Db) (quoteOf : String → Except String QuoteResponse) (now : ℤ)
    (newPosId newOrderId : Nat) (userId symbol : String) (qty : ℤ) :
    Except FieldErrors BuyResult × Db :=
  let sym := rustToUppercase symbol
  let errs : FieldErrors :=
    (if rustIsEmpty (rustTrim sym) then [("symbol", "Missing symbol.")] else [])
      ++ (if qty ≤ 0 then [("qty", "Enter a valid quantity.")] else [])
  if !errs.isEmpty then (.error errs, db)
  else
    match quoteOf sym with
    | .error e => (.error [("_form", "Quote error: " ++ e)], db)
    | .ok quote =>
      let price := quote.c
      let total := price * (qty : ℚ)
      let adb := getOrCreateAccount db userId now
      let acc := adb.1
      let db1 := adb.2
      if acc.cash < total then (.error [("balance", "Not enough cash.")], db1)
      else
        let posOpt := getPosition db1 userId sym
        let newPos : Position :=
          match posOpt with
          | some p =>
            { p with
              qty := p.qty + qty
              avgPrice := (p.avgPrice * (p.qty : ℚ) + total) / (((p.qty + qty : ℤ) : ℚ))
              updatedAt := now }
          | none =>
            { id := newPosId, userId := userId, symbol := sym, qty := qty,
              avgPrice := price, updatedAt := now }
        let db2 := upsertPosition db1 newPos
        let newCash := acc.cash - total
        let db3 := setCash db2 userId newCash now
        let order : Order :=
          { id := newOrderId, userId := userId, symbol := sym, side := "buy",
            qty := qty, price := price, total := total, createdAt := now }
        let db4 := { db3 with orders := db3.orders ++ [order] }
        (.ok { symbol := sym, qty := qty, fillPrice := price, cost := total,
               newCash := newCash, position := newPos }, db4)

/-- `trading_service::market_sell`. -/
def market_sell (db : Db) (quoteOf : String → Except String QuoteResponse) (now : ℤ)
    (newOrderId : Nat) (userId symbol : String) (qty : ℤ) :
    Except FieldErrors SellResult × Db :=
  let sym := rustToUppercase symbol
  let errs : FieldErrors :=
    (if rustIsEmpty (rustTrim sym) then [("symbol", "Missing symbol.")] else [])
      ++ (if qty ≤ 0 then [("qty", "Enter a valid quantity.")] else [])
  if !errs.isEmpty then (.error errs, db)
  else
    match quoteOf sym with
    | .error e => (.error [("_form", "Quote error: " ++ e)], db)
    | .ok quote =>
      let price := quote.c
      match getPosition db userId sym with
      | none => (.error [("qty", "You have no position to sell.")], db)
      | some pos =>
        if pos.qty < qty then (.error [("qty", "You don't have that many shares.")], db)
        else
          let proceeds := price * (qty : ℚ)
          let pos1 : Position := { pos with qty := pos.qty - qty, updatedAt := now }
          let rdb : Option Position × Db :=
            if pos1.qty == 0 then (none, deletePosition db pos.id)
            else (some pos1, upsertPosition db pos1)
          let remaining := rdb.1
          let db1 := rdb.2
          let adb := getOrCreateAccount db1 userId now
          let acc := adb.1
          let db2 := adb.2
          let newCash := acc.cash + proceeds
          let db3 := setCash db2 userId newCash now
          let order : Order :=
            { id := newOrderId, userId := userId, symbol := sym, side := "sell",
              qty := qty, price := price, total := proceeds, createdAt := now }
          let db4 := { db3 with orders := db3.orders ++ [order] }
          (.ok { symbol := sym, qty := qty, fillPrice := price, proceeds := proceeds,
                 newCash := newCash, remaining := remaining }, db4)

/-- `user_service::deposit_funds` (store errors not modelled, so the
operation always succeeds; the HTTP handler `post_funds` additionally
rejects non-finite and non-positive amounts before calling it). -/
def deposit_funds (db : Db) (now : ℤ) (userId : String) (amount : ℚ) : Account × Db :=
  let adb := getOrCreateAccount db userId now
  let acc : Account := { cash := adb.1.cash + amount, updatedAt := now }
  (acc, setCash adb.2 userId acc.cash now)

/-! ## Alert trigger primitive (`alerts_service.rs`) -/

/-- The `$set` payload of the conditional trigger update:
`{ "triggered": true, "triggered_at": now }`. -/
def markTriggered (a : Alert) (now : ℤ) : Alert :=
  { a with triggered := true, triggeredAt := some now }

/-- `alerts_service::trigger_alert`: conditional `update_one` keyed on
`{_id, user_id, triggered: false}`; returns `matched_count > 0` (whether
this call performed the false→true transition) together with the store.
The unconditional `alertsUpdated` broadcast it also sends is not part of
any claim and is not recorded. -/
def trigger_alert (alerts : List Alert) (userId : String) (alertId : Nat) (now : ℤ) :
    Bool × List Alert :=
  updateOne
    (fun a => a.id == alertId && a.userId == userId && a.triggered == false)
    (fun a => markTriggered a now) alerts

/-! ## Alert monitor (`alert_monitor.rs::run_tick`) -/

/-- The monitor's conditional update on one alert:
`update_one({_id: a.id, triggered: false}, {$set: {triggered: true, triggered_at: now}})`. -/
def triggerUpdate (live : List Alert) (alertId : Nat) (now : ℤ) : Bool × List Alert :=
  updateOne (fun b => b.id == alertId && b.triggered == false)
    (fun b => markTriggered b now) live

/-- The monitor's hit test:
`(a.condition == "above" && price >= a.target_price) || (a.condition == "below" && price <= a.target_price)`. -/
def hitB (a : Alert) (price : ℚ) : Bool :=
  (a.condition == "above" && decide (a.targetPrice ≤ price))
    || (a.condition == "below" && decide (price ≤ a.targetPrice))

/-- Distinct elements of a list in order of first occurrence.  Models the
key set of the `HashMap<String, Vec<Alert>>` built by `run_tick` (the
map's iteration order is arbitrary in Rust; the claims proved below are
insensitive to the group order, so first-occurrence order is fixed
here). -/
def firstOccs (l : List String) : List String :=
  l.foldl (fun acc s => if s ∈ acc then acc else acc ++ [s]) []

/-- `run_tick` step 2: group the snapshot of untriggered alerts by
symbol; each group keeps the cursor (list) order of its alerts. -/
def groupBySymbol (l : List Alert) : List (String × List Alert) :=
  (firstOccs (l.map (·.symbol))).map (fun s => (s, l.filter (fun a => a.symbol == s)))

/-- `run_tick` step 4 for one symbol group, given a finite positive
price: for each alert in the group whose condition hits, run the
conditional trigger update against the live store.  The source then does
`if res.is_ok() { triggered_any = true; }`; store errors are not
modelled, so `res.is_ok()` is `true` and the flag is set on every hit —
the `matched_count` computed by the update is deliberately discarded,
exactly as in the source. -/
def processAlerts (now : ℤ) (price : ℚ) :
    List Alert → List Alert → Bool → List Alert × Bool
  | [], live, tAny => (live, tAny)
  | a :: rest, live, tAny =>
    if hitB a price then
      processAlerts now price rest (triggerUpdate live a.id now).2 true
    else
      processAlerts now price rest live tAny

/-- `run_tick` step 3: fetch each group's quote once; skip the group on a
fetch error and on a non-finite or non-positive price
(`!price.is_finite() || price <= 0.0` — when the price is non-finite the
first disjunct already decides the guard, so the rational payload of a
non-finite quote is never consulted).  Returns the live store, the
`triggered_any` flag and the list of symbols for which the quote
endpoint was called. -/
def processGroups (now : ℤ) (fetch : String → Except String QuoteResponse) :
    List (String × List Alert) → List Alert → Bool → List String →
      List Alert × Bool × List String
  | [], live, tAny, calls => (live, tAny, calls)
  | (sym, group) :: rest, live, tAny, calls =>
    let calls1 := calls ++ [sym]
    match fetch sym with
    | .error _ => processGroups now fetch rest live tAny calls1
    | .ok q =>
      if !q.cIsFinite || decide (q.c ≤ 0) then
        processGroups now fetch rest live tAny calls1
      else
        let pa := processAlerts now q.c group live tAny
        processGroups now fetch rest pa.1 pa.2 calls1

/-- Observable outcome of one monitor tick: the alert store afterwards,
the symbols for which the quote gateway was queried, and whether the
single batched `alertsUpdated` notification was published. -/
structure TickResult where
  alerts : List Alert
  quoteCalls : List String
  published : Bool
  deriving DecidableEq, Repr

/-- `run_tick`, split at its one read-then-write boundary: `snapshot` is
the list of alerts returned by the step-1 query
(`find({triggered: false})`), and `live` is the alert store the step-4
conditional updates are applied to.  In a sequential execution
`snapshot = live.filter (!triggered)`; a manual trigger racing between
the query and the updates makes them differ. -/
def run_tick_from (snapshot : List Alert) (live : List Alert)
    (fetch : String → Except String QuoteResponse) (now : ℤ) : TickResult :=
  let bySymbol := groupBySymbol snapshot
  if bySymbol.isEmpty then { alerts := live, quoteCalls := [], published := false }
  else
    let r := processGroups now fetch bySymbol live false []
    { alerts := r.1, quoteCalls := r.2.2, published := r.2.1 }

/-- `alert_monitor::run_tick` in a sequential (race-free) execution: the
step-1 snapshot is exactly the untriggered part of the live store. -/
def run_tick (live : List Alert) (fetch : String → Except String QuoteResponse)
    (now : ℤ) : TickResult :=
  run_tick_from (live.filter (fun a => a.triggered == false)) live fetch now

/-! ## Multi-symbol trades WebSocket query normalization (`ws.rs`) -/

/-- `Vec::dedup`: remove consecutive repeated elements. -/
def dedupAdj : List String → List String
  | [] => []
  | [a] => [a]
  | a :: b :: rest => if a == b then dedupAdj (b :: rest) else a :: dedupAdj (b :: rest)

/-- The symbol-list normalization of `ws_trades_multi`: split the
`symbols` query parameter on commas, trim and uppercase each entry, drop
empty entries, sort (Rust's stable `slice::sort` — over a linear order
on `String` any sort produces the same sorted list, modelled by
insertion sort), remove duplicates, reject with HTTP 400 when nothing
remains (before any upstream connection is attempted), and truncate to
at most 50 symbols. -/
def wsCleanSyms (symbols : String) : List String :=
  ((rustSplit ',' symbols).map (fun s => rustToUppercase (rustTrim s))).filter
    (fun s => !(rustIsEmpty s))

def ws_trades_multi_symbols (symbols : String) : Except Nat (List String) :=
  let syms1 := dedupAdj ((wsCleanSyms symbols).insertionSort (· ≤ ·))
  if syms1.isEmpty then .error 400
  else .ok (if 50 < syms1.length then syms1.take 50 else syms1)

/-- First match by `_id` in an alert store (used to talk about "the alert
with id `i` after the operation"). -/
def findById (l : List Alert) (i : Nat) : Option Alert :=
  l.find? (fun a => a.id == i)

/-! ## Lemmas about the one-document store primitives -/

theorem updateOne_all_false {α : Type} (p : α → Bool) (f : α → α) (l : List α)
    (h : ∀ a ∈ l, p a = false) : updateOne p f l = (false, l) := by
  induction l with
  | nil => rfl
  | cons a as ih =>
    have ha := h a (List.mem_cons_self a as)
    simp only [updateOne, ha, Bool.false_eq_true, if_false]
    have := ih (fun b hb => h b (List.mem_cons_of_mem a hb))
    simp [this]

theorem updateOne_fst_iff {α : Type} (p : α → Bool) (f : α → α) (l : List α) :
    (updateOne p f l).1 = true ↔ ∃ a ∈ l, p a = true := by
  induction l with
  | nil => simp [updateOne]
  | cons a as ih =>
    by_cases hp : p a = true
    · simp [updateOne, hp]
    · simp only [Bool.not_eq_true] at hp
      simp [updateOne, hp, ih]

theorem updateOne_snd_of_false {α : Type} (p : α → Bool) (f : α → α) (l : List α)
    (h : (updateOne p f l).1 = false) : (updateOne p f l).2 = l := by
  induction l with
  | nil => rfl
  | cons a as ih =>
    by_cases hp : p a = true
    · simp [updateOne, hp] at h
    · simp only [Bool.not_eq_true] at hp
      simp only [updateOne, hp, Bool.false_eq_true, if_false] at h ⊢
      simp [ih h]

theorem mem_updateOne_of_false {α : Type} (p : α → Bool) (f : α → α) {l : List α}
    {a : α} (ha : a ∈ l) (hpa : p a = false) : a ∈ (updateOne p f l).2 := by
  induction l with
  | nil => cases ha
  | cons b bs ih =>
    by_cases hp : p b = true
    · simp only [updateOne, hp, if_true]
      rcases List.mem_cons.mp ha with h | h
      · subst h; rw [hp] at hpa; cases hpa
      · exact List.mem_cons_of_mem _ h
    · simp only [Bool.not_eq_true] at hp
      simp only [updateOne, hp, Bool.false_eq_true, if_false]
      rcases List.mem_cons.mp ha with h | h
      · subst h; exact List.mem_cons_self _ _
      · exact List.mem_cons_of_mem _ (ih h)

theorem mem_updateOne_cases {α : Type} (p : α → Bool) (f : α → α) {l : List α}
    {b : α} (hb : b ∈ (updateOne p f l).2) :
    b ∈ l ∨ ∃ a ∈ l, p a = true ∧ b = f a := by
  induction l with
  | nil => cases hb
  | cons a as ih =>
    by_cases hp : p a = true
    · simp only [updateOne, hp, if_true] at hb
      rcases List.mem_cons.mp hb with h | h
      · exact Or.inr ⟨a, List.mem_cons_self _ _, hp, h⟩
      · exact Or.inl (List.mem_cons_of_mem _ h)
    · simp only [Bool.not_eq_true] at hp
      simp only [updateOne, hp, Bool.false_eq_true, if_false] at hb
      rcases List.mem_cons.mp hb with h | h
      · exact Or.inl (h ▸ List.mem_cons_self _ _)
      · rcases ih h with h' | ⟨c, hc, hpc, hbc⟩
        · exact Or.inl (List.mem_cons_of_mem _ h')
        · exact Or.inr ⟨c, List.mem_cons_of_mem _ hc, hpc, hbc⟩

/-- After a matched key-conditional update whose payload falsifies the
condition, no document satisfying the condition remains — provided the
keys are unique and every match shares the key. -/
theorem updateOne_no_residual {α : Type} (key : α → Nat) (k : Nat) (p : α → Bool)
    (f : α → α) (hpk : ∀ a, p a = true → key a = k)
    (hpf : ∀ a, p (f a) = false) (l : List α) (hids : (l.map key).Nodup)
    {b : α} (hb : b ∈ (updateOne p f l).2) (hpb : p b = true) :
    (updateOne p f l).1 = false := by
  induction l with
  | nil => cases hb
  | cons a as ih =>
    by_cases hp : p a = true
    · exfalso
      simp only [updateOne, hp, if_true] at hb
      rcases List.mem_cons.mp hb with h | h
      · subst h; rw [hpf a] at hpb; cases hpb
      · have : key b ∈ as.map key := List.mem_map_of_mem key h
        rw [hpk b hpb, ← hpk a hp] at this
        exact (List.nodup_cons.mp (by simpa using hids)).1 this
    · simp only [Bool.not_eq_true] at hp
      simp only [updateOne, hp, Bool.false_eq_true, if_false] at hb ⊢
      rcases List.mem_cons.mp hb with h | h
      · subst h; rw [hp] at hpb; cases hpb
      · exact ih (List.nodup_cons.mp (by simpa using hids)).2 h

/-! ## Lemmas about the alert monitor's conditional updates -/

theorem findById_eq_some_of_mem {l : List Alert} {a : Alert}
    (hids : (l.map Alert.id).Nodup) (ha : a ∈ l) : findById l a.id = some a := by
  induction l with
  | nil => cases ha
  | cons x xs ih =>
    by_cases hx : x.id = a.id
    · have hax : x = a := by
        rcases List.mem_cons.mp ha with h | h
        · exact h.symm
        · exfalso
          have : a.id ∈ xs.map Alert.id := List.mem_map_of_mem Alert.id h
          rw [← hx] at this
          exact (List.nodup_cons.mp (by simpa using hids)).1 this
      subst hax
      simp [findById]
    · have hax : a ∈ xs := by
        rcases List.mem_cons.mp ha with h | h
        · exact absurd (h ▸ rfl) hx
        · exact h
      have := ih (List.nodup_cons.mp (by simpa using hids)).2 hax
      simpa [findById, hx] using this

theorem findById_triggerUpdate_ne (l : List Alert) (j : Nat) (now : ℤ) {i : Nat}
    (hij : j ≠ i) : findById (triggerUpdate l j now).2 i = findById l i := by
  induction l with
  | nil => rfl
  | cons a as ih =>
    by_cases hp : (a.id == j && a.triggered == false) = true
    · have haj : a.id = j := by
        simp only [Bool.and_eq_true, beq_iff_eq] at hp
        exact hp.1
      have hai : (a.id == i) = false := by
        simp [haj, hij]
      simp only [triggerUpdate, updateOne, hp, if_true, findById, List.find?]
      simp [markTriggered, hai]
    · simp only [triggerUpdate, updateOne, hp, Bool.false_eq_true, if_false,
        findById, List.find?]
      by_cases hai : (a.id == i) = true
      · simp [hai]
      · simp only [Bool.not_eq_true] at hai
        simp only [hai]
        exact ih

theorem findById_triggerUpdate_self (l : List Alert) (now : ℤ) {i : Nat} {a : Alert}
    (hfind : findById l i = some a) (huntrig : a.triggered = false) :
    findById (triggerUpdate l i now).2 i = some (markTriggered a now) := by
  induction l with
  | nil => simp [findById] at hfind
  | cons x xs ih =>
    by_cases hx : (x.id == i) = true
    · have hxa : x = a := by
        simp only [findById, List.find?, hx] at hfind
        exact Option.some.inj hfind
      subst hxa
      have hp : (x.id == i && x.triggered == false) = true := by
        simp [hx, huntrig]
      simp only [triggerUpdate, updateOne, hp, if_true, findById, List.find?]
      have : ((markTriggered x now).id == i) = true := by
        simpa [markTriggered] using hx
      simp [this]
    · simp only [Bool.not_eq_true] at hx
      have hfind' : findById xs i = some a := by
        simpa [findById, List.find?, hx] using hfind
      have hp : (x.id == i && x.triggered == false) = false := by
        simp [hx]
      simp only [triggerUpdate, updateOne, hp, Bool.false_eq_true, if_false,
        findById, List.find?, hx]
      exact ih hfind'

theorem findById_processAlerts_ne (now : ℤ) (price : ℚ) (group live : List Alert)
    (tAny : Bool) {i : Nat} (h : ∀ b ∈ group, b.id ≠ i) :
    findById (processAlerts now price group live tAny).1 i = findById live i := by
  induction group generalizing live tAny with
  | nil => rfl
  | cons a rest ih =>
    by_cases hhit : hitB a price = true
    · simp only [processAlerts, hhit, if_true]
      rw [ih _ _ (fun b hb => h b (List.mem_cons_of_mem a hb))]
      exact findById_triggerUpdate_ne live a.id now (h a (List.mem_cons_self a rest))
    · simp only [Bool.not_eq_true] at hhit
      simp only [processAlerts, hhit, Bool.false_eq_true, if_false]
      exact ih _ _ (fun b hb => h b (List.mem_cons_of_mem a hb))

theorem findById_processAlerts_self (now : ℤ) (price : ℚ) :
    ∀ (group : List Alert) (a : Alert), a ∈ group → (group.map Alert.id).Nodup →
      a.triggered = false →
      ∀ (live : List Alert) (tAny : Bool), findById live a.id = some a →
        findById (processAlerts now price group live tAny).1 a.id =
          some (if hitB a price then markTriggered a now else a) := by
  intro group
  induction group with
  | nil => intro a ha; cases ha
  | cons x rest ih =>
    intro a ha hgids huntrig live tAny hfind
    rw [List.map_cons, List.nodup_cons] at hgids
    by_cases hx : x = a
    · subst hx
      have hrest : ∀ b ∈ rest, b.id ≠ x.id := by
        intro b hb hbid
        exact hgids.1 (hbid ▸ List.mem_map_of_mem Alert.id hb)
      by_cases hhit : hitB x price = true
      · simp only [processAlerts, hhit, if_true, hhit]
        rw [findById_processAlerts_ne now price rest _ true hrest]
        rw [findById_triggerUpdate_self live now hfind huntrig]
      · simp only [Bool.not_eq_true] at hhit
        simp only [processAlerts, hhit, Bool.false_eq_true, if_false]
        rw [findById_processAlerts_ne now price rest _ tAny hrest]
        rw [hfind]
    · have harest : a ∈ rest := by
        rcases List.mem_cons.mp ha with h | h
        · exact absurd h.symm hx
        · exact h
      by_cases hhit : hitB x price = true
      · simp only [processAlerts, hhit, if_true]
        have hxa : x.id ≠ a.id := by
          intro heq
          exact hgids.1 (heq ▸ List.mem_map_of_mem Alert.id harest)
        have hfind' : findById (triggerUpdate live x.id now).2 a.id = some a := by
          rw [findById_triggerUpdate_ne live x.id now hxa]; exact hfind
        exact ih a harest hgids.2 huntrig _ _ hfind'
      · simp only [Bool.not_eq_true] at hhit
        simp only [processAlerts, hhit, Bool.false_eq_true, if_false]
        exact ih a harest hgids.2 huntrig _ _ hfind

theorem findById_processGroups_ne (now : ℤ) (fetch : String → Except String QuoteResponse) :
    ∀ (groups : List (String × List Alert)) (live : List Alert) (tAny : Bool)
      (calls : List String) (i : Nat), (∀ g ∈ groups, ∀ b ∈ g.2, b.id ≠ i) →
      findById (processGroups now fetch groups live tAny calls).1 i = findById live i := by
  intro groups
  induction groups with
  | nil => intro live tAny calls i _; rfl
  | cons g rest ih =>
    intro live tAny calls i h
    obtain ⟨sym, group⟩ := g
    have hg : ∀ b ∈ group, b.id ≠ i := h (sym, group) (List.mem_cons_self _ _)
    have hrest : ∀ g ∈ rest, ∀ b ∈ g.2, b.id ≠ i :=
      fun g hgm => h g (List.mem_cons_of_mem _ hgm)
    simp only [processGroups]
    cases hf : fetch sym with
    | error e => exact ih _ _ _ i hrest
    | ok q =>
      by_cases hguard : (!q.cIsFinite || decide (q.c ≤ 0)) = true
      · simp only [hguard, if_true]
        exact ih _ _ _ i hrest
      · simp only [Bool.not_eq_true] at hguard
        simp only [hguard, Bool.false_eq_true, if_false]
        rw [ih _ _ _ i hrest]
        exact findById_processAlerts_ne now q.c group live tAny hg

theorem mem_processAlerts_of_triggered (now : ℤ) (price : ℚ) :
    ∀ (group live : List Alert) (tAny : Bool) (a : Alert), a ∈ live →
      a.triggered = true → a ∈ (processAlerts now price group live tAny).1 := by
  intro group
  induction group with
  | nil => intro live tAny a ha _; exact ha
  | cons x rest ih =>
    intro live tAny a ha htrig
    by_cases hhit : hitB x price = true
    · simp only [processAlerts, hhit, if_true]
      refine ih _ _ a ?_ htrig
      refine mem_updateOne_of_false _ _ ha ?_
      simp [htrig]
    · simp only [Bool.not_eq_true] at hhit
      simp only [processAlerts, hhit, Bool.false_eq_true, if_false]
      exact ih _ _ a ha htrig

theorem mem_processGroups_of_triggered (now : ℤ)
    (fetch : String → Except String QuoteResponse) :
    ∀ (groups : List (String × List Alert)) (live : List Alert) (tAny : Bool)
      (calls : List String) (a : Alert), a ∈ live → a.triggered = true →
      a ∈ (processGroups now fetch groups live tAny calls).1 := by
  intro groups
  induction groups with
  | nil => intro live tAny calls a ha _; exact ha
  | cons g rest ih =>
    intro live tAny calls a ha htrig
    obtain ⟨sym, group⟩ := g
    simp only [processGroups]
    cases hf : fetch sym with
    | error e => exact ih _ _ _ a ha htrig
    | ok q =>
      by_cases hguard : (!q.cIsFinite || decide (q.c ≤ 0)) = true
      · simp only [hguard, if_true]
        exact ih _ _ _ a ha htrig
      · simp only [Bool.not_eq_true] at hguard
        simp only [hguard, Bool.false_eq_true, if_false]
        exact ih _ _ _ a (mem_processAlerts_of_triggered now q.c group live tAny a ha htrig)
          htrig

theorem processGroups_calls (now : ℤ) (fetch : String → Except String QuoteResponse) :
    ∀ (groups : List (String × List Alert)) (live : List Alert) (tAny : Bool)
      (calls : List String),
      (processGroups now fetch groups live tAny calls).2.2 = calls ++ groups.map Prod.fst := by
  intro groups
  induction groups with
  | nil => intro live tAny calls; simp [processGroups]
  | cons g rest ih =>
    intro live tAny calls
    obtain ⟨sym, group⟩ := g
    simp only [processGroups]
    cases hf : fetch sym with
    | error e => rw [ih]; simp
    | ok q =>
      by_cases hguard : (!q.cIsFinite || decide (q.c ≤ 0)) = true
      · simp only [hguard, if_true]
        rw [ih]; simp
      · simp only [Bool.not_eq_true] at hguard
        simp only [hguard, Bool.false_eq_true, if_false]
        rw [ih]; simp

/-! ## Lemmas about the per-symbol grouping -/

theorem mem_foldl_firstOccs (l : List String) :
    ∀ (acc : List String) (s : String),
      s ∈ l.foldl (fun acc s => if s ∈ acc then acc else acc ++ [s]) acc ↔
        s ∈ acc ∨ s ∈ l := by
  induction l with
  | nil => intro acc s; simp
  | cons x xs ih =>
    intro acc s
    simp only [List.foldl_cons]
    rw [ih]
    by_cases hx : x ∈ acc
    · simp only [hx, if_true, List.mem_cons]
      constructor
      · rintro (h | h)
        · exact Or.inl h
        · exact Or.inr (Or.inr h)
      · rintro (h | h | h)
        · exact Or.inl h
        · exact Or.inl (h ▸ hx)
        · exact Or.inr h
    · simp only [hx, if_false, List.mem_append, List.mem_singleton, List.mem_cons]
      tauto

theorem mem_firstOccs {l : List String} {s : String} : s ∈ firstOccs l ↔ s ∈ l := by
  rw [firstOccs, mem_foldl_firstOccs]
  simp

theorem nodup_foldl_firstOccs (l : List String) :
    ∀ (acc : List String), acc.Nodup →
      (l.foldl (fun acc s => if s ∈ acc then acc else acc ++ [s]) acc).Nodup := by
  induction l with
  | nil => intro acc h; exact h
  | cons x xs ih =>
    intro acc h
    simp only [List.foldl_cons]
    by_cases hx : x ∈ acc
    · simp only [hx, if_true]
      exact ih acc h
    · simp only [hx, if_false]
      refine ih _ ?_
      simpa [List.nodup_append] using ⟨h, hx⟩

theorem nodup_firstOccs (l : List String) : (firstOccs l).Nodup :=
  nodup_foldl_firstOccs l [] List.nodup_nil

theorem groupBySymbol_fst (l : List Alert) :
    (groupBySymbol l).map Prod.fst = firstOccs (l.map (·.symbol)) := by
  simp only [groupBySymbol, List.map_map]
  exact List.map_id _

theorem mem_groupBySymbol_of_mem {l : List Alert} {a : Alert} (ha : a ∈ l) :
    (a.symbol, l.filter (fun b => b.symbol == a.symbol)) ∈ groupBySymbol l := by
  have hs : a.symbol ∈ firstOccs (l.map (·.symbol)) :=
    mem_firstOccs.mpr (List.mem_map_of_mem _ ha)
  exact List.mem_map_of_mem (fun s => (s, l.filter (fun b => b.symbol == s))) hs

theorem mem_group_sub {l : List Alert} {g : String × List Alert}
    (hg : g ∈ groupBySymbol l) : ∀ b ∈ g.2, b ∈ l ∧ b.symbol = g.1 := by
  rcases List.mem_map.mp hg with ⟨s, _, rfl⟩
  intro b hb
  have := List.mem_filter.mp hb
  exact ⟨this.1, by simpa using this.2⟩

theorem group_snd_eq {l : List Alert} {g : String × List Alert}
    (hg : g ∈ groupBySymbol l) : g.2 = l.filter (fun b => b.symbol == g.1) := by
  rcases List.mem_map.mp hg with ⟨s, _, rfl⟩
  rfl

/-- Per-alert effect of the group-processing loop on the document with
the alert's id, for an alert whose record is present and untriggered in
the live store and whose id occurs in exactly one group (its symbol's). -/
theorem findById_processGroups_self (now : ℤ)
    (fetch : String → Except String QuoteResponse) (a : Alert) :
    ∀ (groups : List (String × List Alert)), (groups.map Prod.fst).Nodup →
      (∃ g ∈ groups, g.1 = a.symbol ∧ a ∈ g.2) →
      (∀ g ∈ groups, ∀ b ∈ g.2, b.id = a.id → b = a) →
      (∀ g ∈ groups, ∀ b ∈ g.2, b.symbol = g.1) →
      (∀ g ∈ groups, (g.2.map Alert.id).Nodup) →
      a.triggered = false →
      ∀ (live : List Alert) (tAny : Bool) (calls : List String),
        findById live a.id = some a →
        findById (processGroups now fetch groups live tAny calls).1 a.id =
          some (match fetch a.symbol with
                | .error _ => a
                | .ok q =>
                  if !q.cIsFinite || decide (q.c ≤ 0) then a
                  else if hitB a q.c then markTriggered a now else a) := by
  intro groups
  induction groups with
  | nil =>
    intro _ hin
    rcases hin with ⟨g, hg, _⟩
    cases hg
  | cons g rest ih =>
    intro hsym hin huniq hgsym hgnodup huntrig live tAny calls hfind
    obtain ⟨sym, group⟩ := g
    rw [List.map_cons, List.nodup_cons] at hsym
    by_cases hag : a ∈ group
    · have hsymeq : a.symbol = sym := hgsym (sym, group) (List.mem_cons_self _ _) a hag
      have hrestne : ∀ g ∈ rest, ∀ b ∈ g.2, b.id ≠ a.id := by
        intro g hgr b hb hbid
        have hba : b = a := huniq g (List.mem_cons_of_mem _ hgr) b hb hbid
        subst hba
        have hg1 : g.1 = sym := by
          have h1 : b.symbol = g.1 := hgsym g (List.mem_cons_of_mem _ hgr) b hb
          rw [← h1, hsymeq]
        have hmem : g.1 ∈ rest.map Prod.fst := List.mem_map_of_mem Prod.fst hgr
        rw [hg1] at hmem
        exact hsym.1 hmem
      simp only [processGroups, ← hsymeq]
      cases hf : fetch a.symbol with
      | error e =>
        rw [findById_processGroups_ne now fetch rest _ _ _ a.id hrestne, hfind]
      | ok q =>
        by_cases hguard : (!q.cIsFinite || decide (q.c ≤ 0)) = true
        · simp only [hguard, if_true]
          rw [findById_processGroups_ne now fetch rest _ _ _ a.id hrestne, hfind]
        · simp only [Bool.not_eq_true] at hguard
          simp only [hguard, Bool.false_eq_true, if_false]
          rw [findById_processGroups_ne now fetch rest _ _ _ a.id hrestne]
          exact findById_processAlerts_self now q.c group a hag
            (hgnodup (sym, group) (List.mem_cons_self _ _)) huntrig live tAny hfind
    · have hgne : ∀ b ∈ group, b.id ≠ a.id := by
        intro b hb hbid
        exact hag ((huniq (sym, group) (List.mem_cons_self _ _) b hb hbid) ▸ hb)
      have hinrest : ∃ g ∈ rest, g.1 = a.symbol ∧ a ∈ g.2 := by
        rcases hin with ⟨g, hg, hg1, hg2⟩
        rcases List.mem_cons.mp hg with h | h
        · subst h; exact absurd hg2 hag
        · exact ⟨g, h, hg1, hg2⟩
      have huniqrest : ∀ g ∈ rest, ∀ b ∈ g.2, b.id = a.id → b = a :=
        fun g hg => huniq g (List.mem_cons_of_mem _ hg)
      have hgsymrest : ∀ g ∈ rest, ∀ b ∈ g.2, b.symbol = g.1 :=
        fun g hg => hgsym g (List.mem_cons_of_mem _ hg)
      have hgnoduprest : ∀ g ∈ rest, (g.2.map Alert.id).Nodup :=
        fun g hg => hgnodup g (List.mem_cons_of_mem _ hg)
      simp only [processGroups]
      cases hf : fetch sym with
      | error e =>
        exact ih hsym.2 hinrest huniqrest hgsymrest hgnoduprest huntrig _ _ _ hfind
      | ok q =>
        by_cases hguard : (!q.cIsFinite || decide (q.c ≤ 0)) = true
        · simp only [hguard, if_true]
          exact ih hsym.2 hinrest huniqrest hgsymrest hgnoduprest huntrig _ _ _ hfind
        · simp only [Bool.not_eq_true] at hguard
          simp only [hguard, Bool.false_eq_true, if_false]
          refine ih hsym.2 hinrest huniqrest hgsymrest hgnoduprest huntrig _ _ _ ?_
          rw [findById_processAlerts_ne now q.c group live tAny hgne]
          exact hfind

theorem run_tick_alerts_of_triggered (live : List Alert)
    (fetch : String → Except String QuoteResponse) (now : ℤ) {a : Alert}
    (ha : a ∈ live) (htrig : a.triggered = true) :
    a ∈ (run_tick live fetch now).alerts := by
  simp only [run_tick, run_tick_from]
  by_cases hemp :
      (groupBySymbol (live.filter (fun a => a.triggered == false))).isEmpty = true
  · simp only [hemp, if_true]
    exact ha
  · simp only [Bool.not_eq_true] at hemp
    simp only [hemp, Bool.false_eq_true, if_false]
    exact mem_processGroups_of_triggered now fetch _ live false [] a ha htrig

/-! ## Claim theorems -/

/-- **C5.** The trigger primitive `trigger_alert` (a) reports `true` exactly
when the store holds a matching alert with `triggered = false` — i.e. exactly
when this call performs the false→true transition; (b) when it reports
`false` the store is bit-for-bit unchanged; (c) every already-triggered alert
record survives every `trigger_alert` call unchanged (never un-triggered);
(d) the only record a call can introduce is a previously-untriggered matching
alert with `triggered := true, triggeredAt := now` set; (e) two successive
calls on the same alert yield at most one `true` — the second call always
reports `false`; and (f) the monitor tick `run_tick` also never un-triggers:
every triggered record survives it unchanged. -/
theorem trigger_alert_transition_spec (alerts : List Alert) (uid : String)
    (aid : Nat) (now now2 : ℤ) (hids : (alerts.map Alert.id).Nodup) :
    ((trigger_alert alerts uid aid now).1 = true ↔
        ∃ a ∈ alerts, a.id = aid ∧ a.userId = uid ∧ a.triggered = false) ∧
    ((trigger_alert alerts uid aid now).1 = false →
        (trigger_alert alerts uid aid now).2 = alerts) ∧
    (∀ a ∈ alerts, a.triggered = true → a ∈ (trigger_alert alerts uid aid now).2) ∧
    (∀ b ∈ (trigger_alert alerts uid aid now).2, b ∉ alerts →
        ∃ a ∈ alerts, a.id = aid ∧ a.userId = uid ∧ a.triggered = false ∧
          b = markTriggered a now) ∧
    ((trigger_alert (trigger_alert alerts uid aid now).2 uid aid now2).1 = false) ∧
    (∀ (live : List Alert) (fetch : String → Except String QuoteResponse) (t : ℤ),
        ∀ a ∈ live, a.triggered = true → a ∈ (run_tick live fetch t).alerts) := by
  refine ⟨?_, ?_, ?_, ?_, ?_, ?_⟩
  · rw [trigger_alert, updateOne_fst_iff]
    constructor
    · rintro ⟨a, ha, hp⟩
      simp only [Bool.and_eq_true, beq_iff_eq] at hp
      exact ⟨a, ha, hp.1.1, hp.1.2, hp.2⟩
    · rintro ⟨a, ha, h1, h2, h3⟩
      exact ⟨a, ha, by simp [h1, h2, h3]⟩
  · exact fun h => updateOne_snd_of_false _ _ _ h
  · intro a ha htrig
    exact mem_updateOne_of_false _ _ ha (by simp [htrig])
  · intro b hb hnb
    rcases mem_updateOne_cases _ _ hb with h | ⟨a, ha, hp, hba⟩
    · exact absurd h hnb
    · simp only [Bool.and_eq_true, beq_iff_eq] at hp
      exact ⟨a, ha, hp.1.1, hp.1.2, hp.2, hba⟩
  · by_contra hc
    rw [Bool.not_eq_false] at hc
    rw [trigger_alert, updateOne_fst_iff] at hc
    rcases hc with ⟨b, hb, hpb⟩
    have hfalse : (updateOne
        (fun a => a.id == aid && a.userId == uid && a.triggered == false)
        (fun a => markTriggered a now) alerts).1 = false := by
      refine updateOne_no_residual Alert.id aid _ _ ?_ ?_ alerts hids hb hpb
      · intro a hp
        simp only [Bool.and_eq_true, beq_iff_eq] at hp
        exact hp.1.1
      · intro a
        simp [markTriggered]
    have heq := updateOne_snd_of_false
      (fun a => a.id == aid && a.userId == uid && a.triggered == false)
      (fun a => markTriggered a now) alerts hfalse
    rw [trigger_alert] at hb
    rw [heq] at hb
    have := (updateOne_fst_iff
      (fun a => a.id == aid && a.userId == uid && a.triggered == false)
      (fun a => markTriggered a now) alerts).mpr ⟨b, hb, hpb⟩
    rw [this] at hfalse
    cases hfalse
  · intro live fetch t a ha htrig
    exact run_tick_alerts_of_triggered live fetch t ha htrig

/-- **C5 witness.** Concrete instantiation: a one-alert store; the first
call flips the alert and reports `true`; the second call reports `false`. -/
theorem trigger_alert_transition_spec_witness :
    (([({ id := 1, userId := "u", symbol := "TSLA", condition := "below",
          targetPrice := 100, createdAt := 0, triggered := false,
          triggeredAt := none } : Alert)].map Alert.id).Nodup) ∧
    ((trigger_alert
        [({ id := 1, userId := "u", symbol := "TSLA", condition := "below",
            targetPrice := 100, createdAt := 0, triggered := false,
            triggeredAt := none } : Alert)] "u" 1 3).1 = true ↔
      ∃ a ∈ [({ id := 1, userId := "u", symbol := "TSLA", condition := "below",
                targetPrice := 100, createdAt := 0, triggered := false,
                triggeredAt := none } : Alert)],
        a.id = 1 ∧ a.userId = "u" ∧ a.triggered = false) :=
  ⟨by decide,
   (trigger_alert_transition_spec
      [({ id := 1, userId := "u", symbol := "TSLA", condition := "below",
          targetPrice := 100, createdAt := 0, triggered := false,
          triggeredAt := none } : Alert)] "u" 1 3 4 (by decide)).1⟩

/-- **C8.** In the monitor tick, `triggered_any` is set from
`res.is_ok()` — the success of the `update_one` call — rather than from
its `modified_count`/`matched_count`.  When a manual trigger races
between the step-1 snapshot and the step-4 conditional update, the
update matches nothing (the alert is already triggered), no flag flips,
and yet the tick still publishes `alertsUpdated`: concretely, with a
snapshot holding the alert untriggered, a live store where it is already
triggered (`triggeredAt = 5`), and a hit price 95 ≤ target 100, the tick
leaves the store unchanged but reports `published = true`. -/
theorem run_tick_publish_without_transition :
    (run_tick_from
        [({ id := 1, userId := "u", symbol := "TSLA", condition := "below",
            targetPrice := 100, createdAt := 0, triggered := false,
            triggeredAt := none } : Alert)]
        [({ id := 1, userId := "u", symbol := "TSLA", condition := "below",
            targetPrice := 100, createdAt := 0, triggered := true,
            triggeredAt := some 5 } : Alert)]
        (fun _ => .ok { c := 95, cIsFinite := true }) 9).published = true ∧
    (run_tick_from
        [({ id := 1, userId := "u", symbol := "TSLA", condition := "below",
            targetPrice := 100, createdAt := 0, triggered := false,
            triggeredAt := none } : Alert)]
        [({ id := 1, userId := "u", symbol := "TSLA", condition := "below",
            targetPrice := 100, createdAt := 0, triggered := true,
            triggeredAt := some 5 } : Alert)]
        (fun _ => .ok { c := 95, cIsFinite := true }) 9).alerts =
      [({ id := 1, userId := "u", symbol := "TSLA", condition := "below",
          targetPrice := 100, createdAt := 0, triggered := true,
          triggeredAt := some 5 } : Alert)] := by
  constructor <;> rfl

/-- **C6.** Per-alert evaluation of a sequential monitor tick, for every
pending (untriggered) alert in the store: if its symbol's quote fetch
fails, or the fetched price is non-finite or ≤ 0, its record is left
exactly as it was (still untriggered, to be retried next tick); on a
finite positive price the record is flipped to triggered exactly when
the hit test passes, where for condition `above` the hit test passes iff
`targetPrice ≤ price` and for condition `below` iff `price ≤ targetPrice`. -/
theorem run_tick_alert_evaluation (live : List Alert)
    (fetch : String → Except String QuoteResponse) (now : ℤ)
    (hids : (live.map Alert.id).Nodup) (a : Alert) (ha : a ∈ live)
    (huntrig : a.triggered = false) :
    (∀ e, fetch a.symbol = .error e →
        findById (run_tick live fetch now).alerts a.id = some a) ∧
    (∀ q, fetch a.symbol = .ok q → (q.cIsFinite = false ∨ q.c ≤ 0) →
        findById (run_tick live fetch now).alerts a.id = some a) ∧
    (∀ q, fetch a.symbol = .ok q → q.cIsFinite = true → 0 < q.c →
        findById (run_tick live fetch now).alerts a.id =
          some (if hitB a q.c then markTriggered a now else a) ∧
        (a.condition = "above" → (hitB a q.c = true ↔ a.targetPrice ≤ q.c)) ∧
        (a.condition = "below" → (hitB a q.c = true ↔ q.c ≤ a.targetPrice))) := by
  have ha' : a ∈ live.filter (fun x => x.triggered == false) :=
    List.mem_filter.mpr ⟨ha, by simp [huntrig]⟩
  have hmemgrp := mem_groupBySymbol_of_mem ha'
  have hnotemp :
      ¬((groupBySymbol (live.filter (fun x => x.triggered == false))).isEmpty = true) := by
    intro h
    rw [List.isEmpty_iff] at h
    rw [h] at hmemgrp
    cases hmemgrp
  have hmain : findById (run_tick live fetch now).alerts a.id =
      some (match fetch a.symbol with
            | .error _ => a
            | .ok q =>
              if !q.cIsFinite || decide (q.c ≤ 0) then a
              else if hitB a q.c then markTriggered a now else a) := by
    simp only [run_tick, run_tick_from, hnotemp, if_false, if_neg hnotemp]
    refine findById_processGroups_self now fetch a _ ?_ ?_ ?_ ?_ ?_ huntrig live false []
      (findById_eq_some_of_mem hids ha)
    · rw [groupBySymbol_fst]
      exact nodup_firstOccs _
    · exact ⟨_, hmemgrp, rfl, List.mem_filter.mpr ⟨ha', by simp⟩⟩
    · intro g hg b hb hbid
      have hbl : b ∈ live := List.mem_of_mem_filter (mem_group_sub hg b hb).1
      exact List.inj_on_of_nodup_map hids hbl ha hbid
    · exact fun g hg b hb => (mem_group_sub hg b hb).2
    · intro g hg
      have hsub : List.Sublist g.2 live := by
        rw [group_snd_eq hg]
        exact (List.filter_sublist _).trans (List.filter_sublist _)
      exact List.Nodup.sublist (hsub.map Alert.id) hids
  refine ⟨?_, ?_, ?_⟩
  · intro e he
    rw [hmain, he]
  · intro q hq hbad
    rw [hmain, hq]
    have hguard : (!q.cIsFinite || decide (q.c ≤ 0)) = true := by
      rcases hbad with h | h
      · simp [h]
      · simp [h]
    simp [hguard]
  · intro q hq hfin hpos
    have hguard : (!q.cIsFinite || decide (q.c ≤ 0)) = false := by
      simp [hfin, not_le.mpr hpos]
    refine ⟨?_, ?_, ?_⟩
    · rw [hmain, hq]
      simp [hguard]
    · intro hcond
      have hnb : a.condition ≠ "below" := by
        rw [hcond]; decide
      simp [hitB, hcond, hnb]
    · intro hcond
      have hna : a.condition ≠ "above" := by
        rw [hcond]; decide
      simp [hitB, hcond, hna]

/-- **C6 witness.** Concrete instantiation: one pending `below 100` alert
on TSLA, quote 95 — the record is flipped to triggered. -/
theorem run_tick_alert_evaluation_witness :
    (([(⟨1, "u", "TSLA", "below", 100, 0, false, none⟩ : Alert)].map Alert.id).Nodup) ∧
    findById (run_tick [(⟨1, "u", "TSLA", "below", 100, 0, false, none⟩ : Alert)]
        (fun _ => .ok ⟨95, true⟩) 9).alerts 1 =
      some (if hitB (⟨1, "u", "TSLA", "below", 100, 0, false, none⟩ : Alert) 95 then
          markTriggered (⟨1, "u", "TSLA", "below", 100, 0, false, none⟩ : Alert) 9
        else (⟨1, "u", "TSLA", "below", 100, 0, false, none⟩ : Alert)) :=
  ⟨by decide,
   ((run_tick_alert_evaluation [(⟨1, "u", "TSLA", "below", 100, 0, false, none⟩ : Alert)]
      (fun _ => .ok ⟨95, true⟩) 9 (by decide) _
      (List.mem_singleton.mpr rfl) (by decide)).2.2
      ⟨95, true⟩ rfl rfl (by norm_num)).1⟩

/-- **C7.** In every (sequential) monitor tick the quote gateway is
queried exactly once per distinct symbol occurring among the pending
(untriggered) alerts, and for no other symbol: the list of quote calls
has no duplicates, contains exactly the symbols of pending alerts, and
its length equals the number of distinct pending symbols (in particular
it is at most that number, however many alerts or users share a
symbol). -/
theorem run_tick_quote_batching (live : List Alert)
    (fetch : String → Except String QuoteResponse) (now : ℤ) :
    (run_tick live fetch now).quoteCalls.Nodup ∧
    (∀ s, s ∈ (run_tick live fetch now).quoteCalls ↔
        ∃ a ∈ live, a.triggered = false ∧ a.symbol = s) ∧
    (run_tick live fetch now).quoteCalls.length =
      ((live.filter (fun x => x.triggered == false)).map (fun a => a.symbol)).dedup.length := by
  have hcalls : (run_tick live fetch now).quoteCalls =
      firstOccs ((live.filter (fun x => x.triggered == false)).map (fun a => a.symbol)) := by
    by_cases hemp :
        (groupBySymbol (live.filter (fun x => x.triggered == false))).isEmpty = true
    · have hnil : live.filter (fun x => x.triggered == false) = [] := by
        by_contra hne
        rcases List.exists_mem_of_ne_nil _ hne with ⟨b, hb⟩
        have := mem_groupBySymbol_of_mem hb
        rw [List.isEmpty_iff] at hemp
        rw [hemp] at this
        cases this
      simp only [run_tick, run_tick_from, hemp, if_true, hnil]
      rfl
    · simp only [run_tick, run_tick_from, hemp, Bool.false_eq_true, if_false]
      rw [processGroups_calls, groupBySymbol_fst]
      rfl
  refine ⟨?_, ?_, ?_⟩
  · rw [hcalls]; exact nodup_firstOccs _
  · intro s
    rw [hcalls, mem_firstOccs]
    simp only [List.mem_map, List.mem_filter]
    constructor
    · rintro ⟨b, ⟨hbl, hbt⟩, rfl⟩
      exact ⟨b, hbl, by simpa using hbt, rfl⟩
    · rintro ⟨b, hbl, hbt, rfl⟩
      exact ⟨b, ⟨hbl, by simpa using hbt⟩, rfl⟩
  · rw [hcalls]
    have hperm : List.Perm
        (firstOccs ((live.filter (fun x => x.triggered == false)).map (fun a => a.symbol)))
        (((live.filter (fun x => x.triggered == false)).map (fun a => a.symbol)).dedup) := by
      rw [List.perm_ext_iff_of_nodup (nodup_firstOccs _) (List.nodup_dedup _)]
      intro s
      rw [mem_firstOccs, List.mem_dedup]
    exact hperm.length_eq

/-! ## Lemmas about the ledger store -/

theorem accounts_upsertPosition (db : Db) (pos : Position) :
    (upsertPosition db pos).accounts = db.accounts := by
  unfold upsertPosition
  split <;> rfl

theorem accounts_deletePosition (db : Db) (i : Nat) :
    (deletePosition db i).accounts = db.accounts := rfl

theorem positions_setCash (db : Db) (u : String) (v : ℚ) (t : ℤ) :
    (setCash db u v t).positions = db.positions := rfl

theorem positions_getOrCreate (db : Db) (u : String) (now : ℤ) :
    ((getOrCreateAccount db u now).2).positions = db.positions := by
  unfold getOrCreateAccount
  split <;> rfl

theorem getPosition_getOrCreate (db : Db) (u : String) (now : ℤ) (u' s : String) :
    getPosition (getOrCreateAccount db u now).2 u' s = getPosition db u' s := by
  unfold getPosition
  rw [positions_getOrCreate]

theorem findAccountL_setFirst (l : List (String × Account)) (u : String) (b : Account)
    (h : (findAccountL l u).isSome = true) :
    findAccountL (setFirst (fun kv => kv.1 == u) (u, b) l) u = some b := by
  induction l with
  | nil => simp [findAccountL] at h
  | cons kv rest ih =>
    by_cases hk : (kv.1 == u) = true
    · simp [setFirst, hk, findAccountL, List.find?]
    · simp only [Bool.not_eq_true] at hk
      simp only [findAccountL, List.find?, hk] at h
      simp only [setFirst, hk, Bool.false_eq_true, if_false, findAccountL, List.find?]
      exact ih h

theorem findAccountL_append_of_none (l : List (String × Account)) (u : String)
    (b : Account) (hnone : findAccountL l u = none) :
    findAccountL (l ++ [(u, b)]) u = some b := by
  induction l with
  | nil => simp [findAccountL, List.find?]
  | cons kv rest ih =>
    by_cases hk : (kv.1 == u) = true
    · simp [findAccountL, List.find?, hk] at hnone
    · simp only [Bool.not_eq_true] at hk
      simp only [findAccountL, List.find?, hk] at hnone
      simp only [List.cons_append, findAccountL, List.find?, hk]
      exact ih hnone

theorem findAccount_getOrCreate (db : Db) (u : String) (now : ℤ) :
    findAccount (getOrCreateAccount db u now).2 u =
      some (getOrCreateAccount db u now).1 := by
  unfold getOrCreateAccount
  cases hf : findAccount db u with
  | some a => simpa using hf
  | none => exact findAccountL_append_of_none db.accounts u _ hf

theorem getPositionL_props {l : List Position} {u s : String} {p : Position}
    (h : getPositionL l u s = some p) : p.userId = u ∧ p.symbol = s ∧ p ∈ l := by
  have hp := List.find?_some h
  simp only [Bool.and_eq_true, beq_iff_eq] at hp
  exact ⟨hp.1, hp.2, List.mem_of_find?_eq_some h⟩

theorem getPositionL_setFirst_id (l : List Position) (u s : String)
    (p pos : Position) (hids : (l.map Position.id).Nodup)
    (hfind : getPositionL l u s = some p) (hid : pos.id = p.id)
    (hu : pos.userId = u) (hs : pos.symbol = s) :
    getPositionL (setFirst (fun q => q.id == pos.id) pos l) u s = some pos := by
  induction l with
  | nil => simp [getPositionL] at hfind
  | cons x rest ih =>
    rw [List.map_cons, List.nodup_cons] at hids
    by_cases hx : (x.userId == u && x.symbol == s) = true
    · have hxp : x = p := by
        simp only [getPositionL, List.find?, hx] at hfind
        exact Option.some.inj hfind
      subst hxp
      have hxid : (x.id == pos.id) = true := by simp [hid]
      simp only [setFirst, hxid, if_true, getPositionL, List.find?]
      have : (pos.userId == u && pos.symbol == s) = true := by simp [hu, hs]
      simp [this]
    · simp only [Bool.not_eq_true] at hx
      have hfind' : getPositionL rest u s = some p := by
        simpa [getPositionL, List.find?, hx] using hfind
      have hprest : p ∈ rest := (getPositionL_props hfind').2.2
      have hxid : (x.id == pos.id) = false := by
        rw [beq_eq_false_iff_ne]
        intro hcontra
        rw [hid] at hcontra
        exact hids.1 (hcontra ▸ List.mem_map_of_mem Position.id hprest)
      simp only [setFirst, hxid, Bool.false_eq_true, if_false, getPositionL,
        List.find?, hx]
      exact ih hids.2 hfind'

theorem getPositionL_append_of_none (l : List Position) (u s : String)
    (pos : Position) (hnone : getPositionL l u s = none)
    (hu : pos.userId = u) (hs : pos.symbol = s) :
    getPositionL (l ++ [pos]) u s = some pos := by
  induction l with
  | nil => simp [getPositionL, List.find?, hu, hs]
  | cons x rest ih =>
    by_cases hx : (x.userId == u && x.symbol == s) = true
    · simp [getPositionL, List.find?, hx] at hnone
    · simp only [Bool.not_eq_true] at hx
      simp only [getPositionL, List.find?, hx] at hnone
      simp only [List.cons_append, getPositionL, List.find?, hx]
      exact ih hnone

theorem getPositionL_deleteFirst_id (l : List Position) (u s : String) (p : Position)
    (hids : (l.map Position.id).Nodup)
    (hpair : (l.map (fun q => (q.userId, q.symbol))).Nodup)
    (hfind : getPositionL l u s = some p) :
    getPositionL (deleteFirst (fun q => q.id == p.id) l) u s = none := by
  induction l with
  | nil => simp [getPositionL] at hfind
  | cons x rest ih =>
    rw [List.map_cons, List.nodup_cons] at hids hpair
    by_cases hx : (x.userId == u && x.symbol == s) = true
    · have hxp : x = p := by
        simp only [getPositionL, List.find?, hx] at hfind
        exact Option.some.inj hfind
      subst hxp
      have hxid : (x.id == x.id) = true := by simp
      simp only [deleteFirst, hxid, if_true]
      rw [getPositionL, List.find?_eq_none]
      intro b hb
      simp only [Bool.and_eq_true, beq_iff_eq, not_and]
      intro hbu hbs
      simp only [Bool.and_eq_true, beq_iff_eq] at hx
      apply hpair.1
      have : (b.userId, b.symbol) ∈ rest.map (fun q => (q.userId, q.symbol)) :=
        List.mem_map_of_mem _ hb
      rw [hbu, hbs, ← hx.1, ← hx.2] at this
      exact this
    · simp only [Bool.not_eq_true] at hx
      have hfind' : getPositionL rest u s = some p := by
        simpa [getPositionL, List.find?, hx] using hfind
      have hprest : p ∈ rest := (getPositionL_props hfind').2.2
      have hxid : (x.id == p.id) = false := by
        rw [beq_eq_false_iff_ne]
        intro hcontra
        exact hids.1 (hcontra ▸ List.mem_map_of_mem Position.id hprest)
      simp only [deleteFirst, hxid, Bool.false_eq_true, if_false, getPositionL,
        List.find?, hx]
      exact ih hids.2 hpair.2 hfind'

/-- **C1.** Whenever the account holds `cash ≥ price·qty` (with the account
read lazily, created at the starting balance when absent), a buy of a
positive quantity of a non-empty symbol with an available quote succeeds,
and afterwards: the account cash is `oldCash − price·qty`; the position
quantity is the old quantity plus `qty` with average price
`(oldAvg·oldQty + price·qty)/(oldQty+qty)`, or exactly `price` when no
prior position existed; and the receipt carries the fill price, the cost
`price·qty`, and the new cash.  (`newPosId` fresh models `ObjectId::new`;
position ids unique models the store's `_id` uniqueness.) -/
theorem market_buy_postconditions (db : Db)
    (quoteOf : String → Except String QuoteResponse) (now : ℤ)
    (newPosId newOrderId : Nat) (userId symbol : String) (qty : ℤ)
    (q : QuoteResponse) (hsym : rustIsEmpty (rustTrim (rustToUppercase symbol)) = false)
    (hqty : 0 < qty) (hq : quoteOf (rustToUppercase symbol) = .ok q)
    (hids : (db.positions.map Position.id).Nodup)
    (hfresh : newPosId ∉ db.positions.map Position.id)
    (hcash : q.c * (qty : ℚ) ≤ (getOrCreateAccount db userId now).1.cash) :
    ∃ res db2,
      market_buy db quoteOf now newPosId newOrderId userId symbol qty =
        (.ok res, db2) ∧
      res.fillPrice = q.c ∧ res.cost = q.c * (qty : ℚ) ∧
      res.newCash = (getOrCreateAccount db userId now).1.cash - q.c * (qty : ℚ) ∧
      findAccount db2 userId =
        some { cash := (getOrCreateAccount db userId now).1.cash - q.c * (qty : ℚ),
               updatedAt := now } ∧
      (∀ p, getPosition db userId (rustToUppercase symbol) = some p →
          getPosition db2 userId (rustToUppercase symbol) =
            some { p with
                   qty := p.qty + qty
                   avgPrice :=
                     (p.avgPrice * (p.qty : ℚ) + q.c * (qty : ℚ)) /
                       (((p.qty + qty : ℤ) : ℚ))
                   updatedAt := now }) ∧
      (getPosition db userId (rustToUppercase symbol) = none →
          getPosition db2 userId (rustToUppercase symbol) =
            some { id := newPosId, userId := userId, symbol := (rustToUppercase symbol),
                   qty := qty, avgPrice := q.c, updatedAt := now }) := by
  have hq0 : ¬(qty ≤ 0) := not_le.mpr hqty
  have hlt : ¬((getOrCreateAccount db userId now).1.cash < q.c * (qty : ℚ)) :=
    not_lt.mpr hcash
  unfold market_buy
  simp only [hsym, Bool.false_eq_true, if_false, if_neg hq0, List.nil_append,
    List.isEmpty_nil, Bool.not_true, hq, if_neg hlt]
  rw [getPosition_getOrCreate]
  cases hp : getPosition db userId (rustToUppercase symbol) with
  | some p =>
    obtain ⟨hpu, hps, hpmem⟩ := getPositionL_props hp
    dsimp only
    refine ⟨_, _, rfl, rfl, rfl, rfl, ?_, ?_, ?_⟩
    · show findAccountL (setFirst _ _ (upsertPosition (getOrCreateAccount db userId now).2 _).accounts) userId = _
      rw [accounts_upsertPosition]
      refine findAccountL_setFirst _ _ _ ?_
      rw [show findAccountL (getOrCreateAccount db userId now).2.accounts userId =
          findAccount (getOrCreateAccount db userId now).2 userId from rfl]
      rw [findAccount_getOrCreate]
      rfl
    · intro p' hp'
      injection hp' with hp'
      subst hp'
      show getPositionL (upsertPosition (getOrCreateAccount db userId now).2 _).positions
          userId (rustToUppercase symbol) = _
      unfold upsertPosition
      rw [positions_getOrCreate]
      have hany : db.positions.any
          (fun x => x.id == ({ p with
            qty := p.qty + qty
            avgPrice := (p.avgPrice * (p.qty : ℚ) + q.c * (qty : ℚ)) /
              (((p.qty + qty : ℤ) : ℚ))
            updatedAt := now } : Position).id) = true := by
        refine List.any_eq_true.mpr ⟨p, hpmem, ?_⟩
        simp
      rw [if_pos hany]
      exact getPositionL_setFirst_id db.positions userId (rustToUppercase symbol) p _ hids hp
        rfl hpu hps
    · intro hnone
      cases hnone
  | none =>
    dsimp only
    refine ⟨_, _, rfl, rfl, rfl, rfl, ?_, ?_, ?_⟩
    · show findAccountL (setFirst _ _ (upsertPosition (getOrCreateAccount db userId now).2 _).accounts) userId = _
      rw [accounts_upsertPosition]
      refine findAccountL_setFirst _ _ _ ?_
      rw [show findAccountL (getOrCreateAccount db userId now).2.accounts userId =
          findAccount (getOrCreateAccount db userId now).2 userId from rfl]
      rw [findAccount_getOrCreate]
      rfl
    · intro p' hp'
      cases hp'
    · intro _
      show getPositionL (upsertPosition (getOrCreateAccount db userId now).2 _).positions
          userId (rustToUppercase symbol) = _
      unfold upsertPosition
      rw [positions_getOrCreate]
      have hany : db.positions.any (fun x => x.id == newPosId) = false := by
        rw [List.any_eq_false]
        intro x hx
        simp only [beq_iff_eq]
        intro hcontra
        exact hfresh (hcontra ▸ List.mem_map_of_mem Position.id hx)
      rw [hany]
      simp only [Bool.false_eq_true, if_false]
      exact getPositionL_append_of_none db.positions userId (rustToUppercase symbol) _ hp rfl rfl

/-- **C1 witness.** Concrete instantiation: account with 10 000, no prior
position, buy 10 AAPL at quote 150. -/
theorem market_buy_postconditions_witness :
    (0 : ℤ) < 10 ∧
    ∃ res db2,
      market_buy ⟨[("u", ⟨10000, 0⟩)], [], []⟩
          (fun _ => .ok ⟨150, true⟩) 1 1 2 "u" "AAPL" 10 = (.ok res, db2) ∧
      res.fillPrice = (150 : ℚ) ∧ res.cost = (150 : ℚ) * ((10 : ℤ) : ℚ) ∧
      res.newCash = (getOrCreateAccount ⟨[("u", ⟨10000, 0⟩)], [], []⟩ "u" 1).1.cash -
        (150 : ℚ) * ((10 : ℤ) : ℚ) ∧
      findAccount db2 "u" =
        some { cash := (getOrCreateAccount ⟨[("u", ⟨10000, 0⟩)], [], []⟩ "u" 1).1.cash -
                 (150 : ℚ) * ((10 : ℤ) : ℚ),
               updatedAt := 1 } ∧
      (∀ p, getPosition ⟨[("u", ⟨10000, 0⟩)], [], []⟩ "u" (rustToUppercase "AAPL") = some p →
          getPosition db2 "u" (rustToUppercase "AAPL") =
            some { p with
                   qty := p.qty + 10
                   avgPrice := (p.avgPrice * (p.qty : ℚ) + (150 : ℚ) * ((10 : ℤ) : ℚ)) /
                     (((p.qty + 10 : ℤ) : ℚ))
                   updatedAt := 1 }) ∧
      (getPosition ⟨[("u", ⟨10000, 0⟩)], [], []⟩ "u" (rustToUppercase "AAPL") = none →
          getPosition db2 "u" (rustToUppercase "AAPL") =
            some { id := 1, userId := "u", symbol := (rustToUppercase "AAPL"), qty := 10,
                   avgPrice := (150 : ℚ), updatedAt := 1 }) :=
  ⟨by decide,
   market_buy_postconditions ⟨[("u", ⟨10000, 0⟩)], [], []⟩
     (fun _ => .ok ⟨150, true⟩) 1 1 2 "u" "AAPL" 10 ⟨150, true⟩
     (by decide) (by decide) rfl (by decide) (by decide) (by decide)⟩

theorem getOrCreateAccount_fst_congr (db db' : Db) (u : String) (now : ℤ)
    (h : db'.accounts = db.accounts) :
    (getOrCreateAccount db' u now).1 = (getOrCreateAccount db u now).1 := by
  unfold getOrCreateAccount findAccount
  rw [h]
  cases findAccountL db.accounts u <;> rfl

/-- **C2.** For a sell of `0 < qty ≤ heldQty` of a held position, with a
non-empty symbol and an available quote, `market_sell` succeeds and
afterwards the account cash is `oldCash + price·qty` (account read
lazily, as in the source); when `qty = heldQty` the position record is
deleted and the receipt's `remaining` is `none`, otherwise the position
quantity is `heldQty − qty` with the average price unchanged (only `qty`
and `updatedAt` are rewritten). -/
theorem market_sell_postconditions (db : Db)
    (quoteOf : String → Except String QuoteResponse) (now : ℤ)
    (newOrderId : Nat) (userId symbol : String) (qty : ℤ) (q : QuoteResponse)
    (p : Position) (hsym : rustIsEmpty (rustTrim (rustToUppercase symbol)) = false)
    (hqty : 0 < qty) (hq : quoteOf (rustToUppercase symbol) = .ok q)
    (hp : getPosition db userId (rustToUppercase symbol) = some p) (hle : qty ≤ p.qty)
    (hids : (db.positions.map Position.id).Nodup)
    (hpair : (db.positions.map (fun x => (x.userId, x.symbol))).Nodup) :
    ∃ res db2,
      market_sell db quoteOf now newOrderId userId symbol qty = (.ok res, db2) ∧
      res.fillPrice = q.c ∧ res.proceeds = q.c * (qty : ℚ) ∧
      res.newCash = (getOrCreateAccount db userId now).1.cash + q.c * (qty : ℚ) ∧
      findAccount db2 userId =
        some { cash := (getOrCreateAccount db userId now).1.cash + q.c * (qty : ℚ),
               updatedAt := now } ∧
      (qty = p.qty → res.remaining = none ∧
          getPosition db2 userId (rustToUppercase symbol) = none) ∧
      (qty < p.qty →
          res.remaining = some { p with qty := p.qty - qty, updatedAt := now } ∧
          getPosition db2 userId (rustToUppercase symbol) =
            some { p with qty := p.qty - qty, updatedAt := now }) := by
  have hq0 : ¬(qty ≤ 0) := not_le.mpr hqty
  have hlt : ¬(p.qty < qty) := not_lt.mpr hle
  obtain ⟨hpu, hps, hpmem⟩ := getPositionL_props hp
  unfold market_sell
  simp only [hsym, Bool.false_eq_true, if_false, if_neg hq0, List.nil_append,
    List.isEmpty_nil, Bool.not_true, hq]
  rw [hp]
  dsimp only
  simp only [if_neg hlt]
  by_cases hz : p.qty - qty = 0
  · have hbeq : ((p.qty - qty : ℤ) == 0) = true := beq_iff_eq.mpr hz
    simp only [hbeq, if_true]
    have haccs : (deletePosition db p.id).accounts = db.accounts :=
      accounts_deletePosition db p.id
    have hfst := getOrCreateAccount_fst_congr db (deletePosition db p.id) userId now haccs
    refine ⟨_, _, rfl, rfl, rfl, ?_, ?_, ?_, ?_⟩
    · rw [hfst]
    · show findAccountL (setFirst _ _
          (getOrCreateAccount (deletePosition db p.id) userId now).2.accounts) userId = _
      rw [← hfst]
      refine findAccountL_setFirst _ _ _ ?_
      rw [show findAccountL (getOrCreateAccount (deletePosition db p.id) userId now).2.accounts
          userId = findAccount (getOrCreateAccount (deletePosition db p.id) userId now).2
          userId from rfl]
      rw [findAccount_getOrCreate]
      rfl
    · intro _
      refine ⟨rfl, ?_⟩
      show getPositionL (getOrCreateAccount (deletePosition db p.id) userId now).2.positions
          userId (rustToUppercase symbol) = none
      rw [positions_getOrCreate]
      exact getPositionL_deleteFirst_id db.positions userId (rustToUppercase symbol) p hids hpair hp
    · intro hcontra
      omega
  · have hbeq : ((p.qty - qty : ℤ) == 0) = false := by
      rw [beq_eq_false_iff_ne]
      exact hz
    simp only [hbeq, Bool.false_eq_true, if_false]
    have haccs : (upsertPosition db { p with qty := p.qty - qty, updatedAt := now }).accounts =
        db.accounts := accounts_upsertPosition db _
    have hfst := getOrCreateAccount_fst_congr db
      (upsertPosition db { p with qty := p.qty - qty, updatedAt := now }) userId now haccs
    refine ⟨_, _, rfl, rfl, rfl, ?_, ?_, ?_, ?_⟩
    · rw [hfst]
    · show findAccountL (setFirst _ _
          (getOrCreateAccount (upsertPosition db { p with qty := p.qty - qty, updatedAt := now })
            userId now).2.accounts) userId = _
      rw [← hfst]
      refine findAccountL_setFirst _ _ _ ?_
      rw [show findAccountL (getOrCreateAccount
          (upsertPosition db { p with qty := p.qty - qty, updatedAt := now })
          userId now).2.accounts userId =
          findAccount (getOrCreateAccount
            (upsertPosition db { p with qty := p.qty - qty, updatedAt := now })
            userId now).2 userId from rfl]
      rw [findAccount_getOrCreate]
      rfl
    · intro hcontra
      omega
    · intro _
      refine ⟨rfl, ?_⟩
      show getPositionL (getOrCreateAccount
          (upsertPosition db { p with qty := p.qty - qty, updatedAt := now })
          userId now).2.positions userId (rustToUppercase symbol) = _
      rw [positions_getOrCreate]
      unfold upsertPosition
      have hany : db.positions.any
          (fun x => x.id == ({ p with qty := p.qty - qty, updatedAt := now } : Position).id) =
          true := by
        refine List.any_eq_true.mpr ⟨p, hpmem, ?_⟩
        simp
      rw [if_pos hany]
      exact getPositionL_setFirst_id db.positions userId (rustToUppercase symbol) p _ hids hp rfl hpu hps

/-- **C2 witness.** Concrete instantiation: sell 3 of 10 held AAPL at
quote 170 — cash is credited 510, position drops to 7 with its average
price untouched. -/
theorem market_sell_postconditions_witness :
    (0 : ℤ) < 3 ∧ (3 : ℤ) ≤ (⟨7, "u", "AAPL", 10, 150, 0⟩ : Position).qty ∧
    ∃ res db2,
      market_sell ⟨[("u", ⟨8500, 0⟩)], [⟨7, "u", "AAPL", 10, 150, 0⟩], []⟩
          (fun _ => .ok ⟨170, true⟩) 2 9 "u" "AAPL" 3 = (.ok res, db2) ∧
      res.fillPrice = (170 : ℚ) ∧ res.proceeds = (170 : ℚ) * ((3 : ℤ) : ℚ) ∧
      res.newCash = (getOrCreateAccount ⟨[("u", ⟨8500, 0⟩)], [⟨7, "u", "AAPL", 10, 150, 0⟩], []⟩
          "u" 2).1.cash + (170 : ℚ) * ((3 : ℤ) : ℚ) ∧
      findAccount db2 "u" =
        some { cash := (getOrCreateAccount ⟨[("u", ⟨8500, 0⟩)], [⟨7, "u", "AAPL", 10, 150, 0⟩], []⟩
                 "u" 2).1.cash + (170 : ℚ) * ((3 : ℤ) : ℚ),
               updatedAt := 2 } ∧
      ((3 : ℤ) = (⟨7, "u", "AAPL", 10, 150, 0⟩ : Position).qty → res.remaining = none ∧
          getPosition db2 "u" (rustToUppercase "AAPL") = none) ∧
      ((3 : ℤ) < (⟨7, "u", "AAPL", 10, 150, 0⟩ : Position).qty →
          res.remaining = some { (⟨7, "u", "AAPL", 10, 150, 0⟩ : Position) with
            qty := (⟨7, "u", "AAPL", 10, 150, 0⟩ : Position).qty - 3, updatedAt := 2 } ∧
          getPosition db2 "u" (rustToUppercase "AAPL") =
            some { (⟨7, "u", "AAPL", 10, 150, 0⟩ : Position) with
              qty := (⟨7, "u", "AAPL", 10, 150, 0⟩ : Position).qty - 3, updatedAt := 2 }) :=
  ⟨by decide, by decide,
   market_sell_postconditions ⟨[("u", ⟨8500, 0⟩)], [⟨7, "u", "AAPL", 10, 150, 0⟩], []⟩
     (fun _ => .ok ⟨170, true⟩) 2 9 "u" "AAPL" 3 ⟨170, true⟩
     ⟨7, "u", "AAPL", 10, 150, 0⟩ (by decide) (by decide) rfl (by decide) (by decide)
     (by decide) (by decide)⟩

/-- **C3.** Contrary to the claim, neither `market_buy` nor `market_sell`
validates the quoted price: the source checks only that the quote fetch
succeeded (`state.finnhub.quote(..)` returning `Ok`), with no
`is_finite`/positivity test (unlike `run_tick`, which has one).  A
successful quote of `0.0` lets a buy execute at price 0 (cost 0, cash
unchanged, position booked at average price 0), and a successful quote of
`-1.0` lets a sell execute at a negative price. -/
theorem trading_accepts_nonpositive_quote :
    (market_buy ⟨[("u", ⟨10000, 0⟩)], [], []⟩ (fun _ => .ok ⟨0, true⟩)
        1 1 2 "u" "AAPL" 1).1 =
      .ok { symbol := "AAPL", qty := 1, fillPrice := 0, cost := 0,
            newCash := 10000, position := ⟨1, "u", "AAPL", 1, 0, 1⟩ } ∧
    (market_sell ⟨[("u", ⟨0, 0⟩)], [⟨1, "u", "AAPL", 1, 10000, 0⟩], []⟩
        (fun _ => .ok ⟨-1, true⟩) 1 2 "u" "AAPL" 1).1 =
      .ok { symbol := "AAPL", qty := 1, fillPrice := -1, proceeds := -1,
            newCash := -1, remaining := none } := by
  constructor <;> rfl

/-- **C4 counterexample.** A buy rejected for insufficient funds is not
always free of record creation: when the user has no account yet,
`get_or_create_account` runs before the funds check and persists a fresh
account at the starting balance, so the store after the rejected buy
differs from the store before it. -/
theorem buy_rejection_creates_account :
    market_buy ⟨[], [], []⟩ (fun _ => .ok ⟨20000, true⟩) 1 1 2 "u" "AAPL" 1 =
      (.error [("balance", "Not enough cash.")],
        ⟨[("u", { cash := 10000, updatedAt := 1 })], [], []⟩) ∧
    (⟨[("u", { cash := 10000, updatedAt := 1 })], [], []⟩ : Db) ≠
      (⟨[], [], []⟩ : Db) := by
  exact ⟨rfl, by decide⟩

/-- **C4 (amended).** Business-rule rejections are atomic up to the lazy
account creation performed by the account lookup: a sell with no position
held, a sell of more than the held quantity, and a buy with insufficient
cash on an existing account each return their error with the store
bit-for-bit unchanged; a buy with insufficient cash for a user with no
account record returns the error with the only change being the lazily
created account at the starting balance (no position or order record is
ever touched by any rejection). -/
theorem trade_rejections_atomic (db : Db)
    (quoteOf : String → Except String QuoteResponse) (now : ℤ)
    (newPosId newOrderId : Nat) (userId symbol : String) (qty : ℤ)
    (q : QuoteResponse)
    (hsym : rustIsEmpty (rustTrim (rustToUppercase symbol)) = false)
    (hqty : 0 < qty) (hq : quoteOf (rustToUppercase symbol) = .ok q) :
    (getPosition db userId (rustToUppercase symbol) = none →
        market_sell db quoteOf now newOrderId userId symbol qty =
          (.error [("qty", "You have no position to sell.")], db)) ∧
    (∀ p, getPosition db userId (rustToUppercase symbol) = some p → p.qty < qty →
        market_sell db quoteOf now newOrderId userId symbol qty =
          (.error [("qty", "You don't have that many shares.")], db)) ∧
    (∀ a, findAccount db userId = some a → a.cash < q.c * (qty : ℚ) →
        market_buy db quoteOf now newPosId newOrderId userId symbol qty =
          (.error [("balance", "Not enough cash.")], db)) ∧
    (findAccount db userId = none → (10000 : ℚ) < q.c * (qty : ℚ) →
        market_buy db quoteOf now newPosId newOrderId userId symbol qty =
          (.error [("balance", "Not enough cash.")],
            { db with accounts :=
                db.accounts ++ [(userId, { cash := 10000, updatedAt := now })] })) := by
  have hq0 : ¬(qty ≤ 0) := not_le.mpr hqty
  refine ⟨?_, ?_, ?_, ?_⟩
  · intro hnone
    unfold market_sell
    simp only [hsym, Bool.false_eq_true, if_false, if_neg hq0, List.nil_append,
      List.isEmpty_nil, Bool.not_true, hq]
    rw [hnone]
  · intro p hp hlt
    unfold market_sell
    simp only [hsym, Bool.false_eq_true, if_false, if_neg hq0, List.nil_append,
      List.isEmpty_nil, Bool.not_true, hq]
    rw [hp]
    dsimp only
    rw [if_pos hlt]
  · intro a ha hlt
    have hacc : getOrCreateAccount db userId now = (a, db) := by
      unfold getOrCreateAccount
      rw [ha]
    unfold market_buy
    simp only [hsym, Bool.false_eq_true, if_false, if_neg hq0, List.nil_append,
      List.isEmpty_nil, Bool.not_true, hq, hacc]
    rw [if_pos hlt]
  · intro hnone hgt
    have hacc : getOrCreateAccount db userId now =
        ({ cash := 10000, updatedAt := now },
          { db with accounts :=
              db.accounts ++ [(userId, { cash := 10000, updatedAt := now })] }) := by
      unfold getOrCreateAccount
      rw [hnone]
    unfold market_buy
    simp only [hsym, Bool.false_eq_true, if_false, if_neg hq0, List.nil_append,
      List.isEmpty_nil, Bool.not_true, hq, hacc]
    rw [if_pos hgt]

/-- **C4 witness.** Concrete instantiation of the amended atomicity
statement: an over-sell on a store holding one 10-share position is
rejected with the store unchanged. -/
theorem trade_rejections_atomic_witness :
    (0 : ℤ) < 11 ∧
    (∀ p, getPosition ⟨[("u", ⟨8500, 0⟩)], [⟨7, "u", "AAPL", 10, 150, 0⟩], []⟩
        "u" (rustToUppercase "AAPL") = some p → p.qty < 11 →
      market_sell ⟨[("u", ⟨8500, 0⟩)], [⟨7, "u", "AAPL", 10, 150, 0⟩], []⟩
          (fun _ => .ok ⟨170, true⟩) 2 9 "u" "AAPL" 11 =
        (.error [("qty", "You don't have that many shares.")],
          ⟨[("u", ⟨8500, 0⟩)], [⟨7, "u", "AAPL", 10, 150, 0⟩], []⟩)) :=
  ⟨by decide,
   (trade_rejections_atomic ⟨[("u", ⟨8500, 0⟩)], [⟨7, "u", "AAPL", 10, 150, 0⟩], []⟩
      (fun _ => .ok ⟨170, true⟩) 2 1 9 "u" "AAPL" 11 ⟨170, true⟩
      (by decide) (by decide) rfl).2.1⟩

/-- **C9.** The `cash ≥ 0` invariant is reachable-state false in the code:
because the trading service never validates the quoted price (see the C3
divergence), a sell at a negative quoted price debits the account.
Starting from a fresh user (account lazily created at 10 000), buying
1 share at quote 10 000 leaves cash 0; selling that share at quote −1
then *succeeds* and commits cash −1 < 0. -/
theorem sell_at_negative_quote_drives_cash_negative :
    (market_buy ⟨[], [], []⟩ (fun _ => .ok ⟨10000, true⟩) 0 1 2 "u" "AAPL" 1).2 =
      ⟨[("u", ⟨0, 0⟩)], [⟨1, "u", "AAPL", 1, 10000, 0⟩],
       [⟨2, "u", "AAPL", "buy", 1, 10000, 10000, 0⟩]⟩ ∧
    market_sell
        (⟨[("u", ⟨0, 0⟩)], [⟨1, "u", "AAPL", 1, 10000, 0⟩],
          [⟨2, "u", "AAPL", "buy", 1, 10000, 10000, 0⟩]⟩ : Db)
        (fun _ => .ok ⟨-1, true⟩) 1 3 "u" "AAPL" 1 =
      (.ok { symbol := "AAPL", qty := 1, fillPrice := -1, proceeds := -1,
             newCash := -1, remaining := none },
       ⟨[("u", ⟨-1, 1⟩)], [],
        [⟨2, "u", "AAPL", "buy", 1, 10000, 10000, 0⟩,
         ⟨3, "u", "AAPL", "sell", 1, -1, -1, 1⟩]⟩) ∧
    findAccount (⟨[("u", ⟨-1, 1⟩)], [],
        [⟨2, "u", "AAPL", "buy", 1, 10000, 10000, 0⟩,
         ⟨3, "u", "AAPL", "sell", 1, -1, -1, 1⟩]⟩ : Db) "u" = some ⟨-1, 1⟩ ∧
    (-1 : ℚ) < 0 := by
  refine ⟨rfl, rfl, by decide, by norm_num⟩

theorem mem_dedupAdj : ∀ (l : List String) (x : String), x ∈ dedupAdj l ↔ x ∈ l := by
  intro l
  induction l with
  | nil => intro x; simp [dedupAdj]
  | cons a rest ih =>
    intro x
    cases rest with
    | nil => simp [dedupAdj]
    | cons b rest2 =>
      by_cases hab : (a == b) = true
      · have hab' : a = b := beq_iff_eq.mp hab
        simp only [dedupAdj, hab, if_true]
        rw [ih x, hab']
        simp only [List.mem_cons]
        tauto
      · simp only [dedupAdj, hab, Bool.false_eq_true, if_false, List.mem_cons]
        rw [ih x]
        simp [List.mem_cons]

theorem dedupAdj_strict_sorted : ∀ (l : List String), l.Sorted (· ≤ ·) →
    (dedupAdj l).Sorted (· < ·) := by
  intro l
  induction l with
  | nil => intro _; simp [dedupAdj]
  | cons a rest ih =>
    intro hs
    cases rest with
    | nil => simp [dedupAdj]
    | cons b rest2 =>
      by_cases hab : (a == b) = true
      · simp only [dedupAdj, hab, if_true]
        exact ih hs.of_cons
      · simp only [dedupAdj, hab, Bool.false_eq_true, if_false]
        rw [List.sorted_cons]
        refine ⟨?_, ih hs.of_cons⟩
        intro c hc
        have hcmem : c ∈ b :: rest2 := (mem_dedupAdj _ c).mp hc
        have hab' : a ≠ b := by
          intro h
          rw [h] at hab
          simp at hab
        have halb : a < b :=
          lt_of_le_of_ne (List.rel_of_sorted_cons hs b (List.mem_cons_self _ _)) hab'
        rcases List.mem_cons.mp hcmem with h | h
        · exact h ▸ halb
        · exact lt_of_lt_of_le halb (List.rel_of_sorted_cons hs.of_cons c h)

theorem dedupAdj_eq_nil_iff : ∀ (l : List String), dedupAdj l = [] ↔ l = [] := by
  intro l
  induction l with
  | nil => simp [dedupAdj]
  | cons a rest ih =>
    cases rest with
    | nil => simp [dedupAdj]
    | cons b rest2 =>
      by_cases hab : (a == b) = true
      · simp only [dedupAdj, hab, if_true]
        rw [ih]
        simp
      · simp [dedupAdj, hab]

/-- **C10.** The `symbols` query parameter of the multi-symbol trades
WebSocket endpoint is normalized before any subscription: split on
commas, each entry trimmed and uppercased, empty entries dropped,
sorted, de-duplicated, truncated to at most 50 symbols; when no
non-empty entry remains the request is answered with HTTP 400 (the
handler returns before `ws.on_upgrade`, so no upstream connection is
made).  Every delivered list is sorted without duplicates, holds at most
50 symbols, contains only cleaned entries of the parameter, and omits a
cleaned entry only when the 50-symbol cap was reached. -/
theorem ws_trades_multi_normalization (s : String) :
    (ws_trades_multi_symbols s = .error 400 ↔ wsCleanSyms s = []) ∧
    (∀ l, ws_trades_multi_symbols s = .ok l →
        l.length ≤ 50 ∧ l.Sorted (· ≤ ·) ∧ l.Nodup ∧
        (∀ x ∈ l, x ∈ wsCleanSyms s) ∧
        (∀ x ∈ wsCleanSyms s, x ∈ l ∨ l.length = 50)) := by
  have hperm := List.perm_insertionSort (α := String) (· ≤ ·) (wsCleanSyms s)
  have hsorted := List.sorted_insertionSort (α := String) (· ≤ ·) (wsCleanSyms s)
  have hstrict := dedupAdj_strict_sorted _ hsorted
  by_cases hnil : dedupAdj ((wsCleanSyms s).insertionSort (· ≤ ·)) = []
  · have hclean : wsCleanSyms s = [] := by
      have hsortnil : (wsCleanSyms s).insertionSort (· ≤ ·) = [] :=
        (dedupAdj_eq_nil_iff _).mp hnil
      have := hperm.symm
      rw [hsortnil] at this
      exact this.eq_nil
    constructor
    · rw [ws_trades_multi_symbols, hnil]
      simp [hclean]
    · intro l hl
      rw [ws_trades_multi_symbols, hnil] at hl
      simp at hl
  · have hempty :
        (dedupAdj ((wsCleanSyms s).insertionSort (· ≤ ·))).isEmpty = false := by
      rw [List.isEmpty_eq_false_iff_exists_mem]
      rcases List.exists_mem_of_ne_nil _ hnil with ⟨x, hx⟩
      exact ⟨x, hx⟩
    constructor
    · rw [ws_trades_multi_symbols]
      simp only [hempty, Bool.false_eq_true, if_false]
      constructor
      · intro h
        split at h <;> cases h
      · intro h
        exfalso
        apply hnil
        rw [(dedupAdj_eq_nil_iff _)]
        rw [h]
        rfl
    · intro l hl
      rw [ws_trades_multi_symbols] at hl
      simp only [hempty, Bool.false_eq_true, if_false] at hl
      have hmemiff : ∀ x, x ∈ dedupAdj ((wsCleanSyms s).insertionSort (· ≤ ·)) ↔
          x ∈ wsCleanSyms s := by
        intro x
        rw [mem_dedupAdj]
        exact hperm.mem_iff
      have hnodup : (dedupAdj ((wsCleanSyms s).insertionSort (· ≤ ·))).Nodup :=
        hstrict.imp (fun h => ne_of_lt h)
      have hsorted' : (dedupAdj ((wsCleanSyms s).insertionSort (· ≤ ·))).Sorted (· ≤ ·) :=
        hstrict.imp (fun h => le_of_lt h)
      by_cases hlen : 50 < (dedupAdj ((wsCleanSyms s).insertionSort (· ≤ ·))).length
      · rw [if_pos hlen] at hl
        injection hl with hl
        subst hl
        have hlen50 : (List.take 50 (dedupAdj ((wsCleanSyms s).insertionSort (· ≤ ·)))).length
            = 50 := by
          rw [List.length_take]
          exact Nat.min_eq_left (Nat.le_of_lt hlen)
        refine ⟨le_of_eq hlen50, ?_, ?_, ?_, ?_⟩
        · exact hsorted'.sublist (List.take_sublist _ _)
        · exact List.Nodup.sublist (List.take_sublist _ _) hnodup
        · intro x hx
          exact (hmemiff x).mp (List.mem_of_mem_take hx)
        · intro x _
          exact Or.inr hlen50
      · rw [if_neg hlen] at hl
        injection hl with hl
        subst hl
        refine ⟨Nat.le_of_not_lt hlen, hsorted', hnodup, ?_, ?_⟩
        · intro x hx
          exact (hmemiff x).mp hx
        · intro x hx
          exact Or.inl ((hmemiff x).mpr hx)

/-- **C10 witness.** Concrete instantiation: `" aapl,,  "` normalizes to
`["AAPL"]` (trimmed, uppercased, empty entries dropped), which is within
the 50-symbol cap. -/
theorem ws_trades_multi_normalization_witness :
    (ws_trades_multi_symbols " aapl,,  " = .ok ["AAPL"]) ∧
    (["AAPL"].length ≤ 50 ∧
      (["AAPL"] : List String).Sorted (· ≤ ·) ∧
      (["AAPL"] : List String).Nodup ∧
      (∀ x ∈ (["AAPL"] : List String), x ∈ wsCleanSyms " aapl,,  ") ∧
      (∀ x ∈ wsCleanSyms " aapl,,  ",
        x ∈ (["AAPL"] : List String) ∨ (["AAPL"] : List String).length = 50)) :=
  ⟨rfl, (ws_trades_multi_normalization " aapl,,  ").2 ["AAPL"] rfl⟩

end RustMarket
